import Mathlib

/-!
# Verification of `compress_int` (rs-sandbox)

A shallow embedding of `src/src/lib.rs` into Lean.  The Rust function

```
pub fn compress_int<T>(input: T, bit_count: u32) -> T
```

is generic over an unsigned integer type `T` of bit width `W`.  We model a
value of `T` as a `Nat` together with the invariant `input < 2 ^ W`, and we
model the width as an explicit parameter `W`.  Machine shifts and the bitwise
`|` are modelled with `Nat.shiftLeft`/`Nat.shiftRight`/`Nat.lor`, with an
explicit `% 2 ^ W` where a left shift could drop high bits.

The Rust function can fail (the `assert!(bit_count > 0)` panics, and a shift
by an amount `≥ W` panics), so the embedding returns `Option Nat`: `none`
models a panic, `some r` a normal return of `r`.
-/

namespace RsSandbox

/-- Fuel-indexed helper computing the number of binary digits of `n`
(the POSIX `fls` value): `0` for `n = 0`, otherwise `fls (n / 2) + 1`.
The fuel makes the recursion structural, so that the kernel can evaluate it. -/
def flsAux : Nat → Nat → Nat
  | _, 0 => 0
  | 0, _ + 1 => 0
  | fuel + 1, n + 1 => flsAux fuel ((n + 1) / 2) + 1

/-- The 1-indexed position of the most significant set bit of `n`
(`0` for `n = 0`); the POSIX `fls` convention. -/
def fls (n : Nat) : Nat := flsAux n n

/-- `input.leading_zeros()` for a value `n` of an unsigned type of width `W`:
the number of leading zero bits of `n` in a `W`-bit representation. -/
def leading_zeros (W n : Nat) : Nat := W - fls n

/-- `let high_bit_index = input_bit_count - input.leading_zeros();`
(src/src/lib.rs line 46). -/
def high_bit_index (W n : Nat) : Nat := W - leading_zeros W n

/-- Shallow embedding of `compress_int` (src/src/lib.rs lines 38-70) for an
unsigned type of width `W`.  `none` models a panic: the
`assert!(bit_count > 0)` on line 42, or a shift by an amount `≥ W`
(the guard `W ≤ shift` covers `input >> shift`, `prefix << shift` and
`T::one() << (shift - 1)`, whose amount `shift - 1` is smaller still;
that guard is provably never taken). -/
def compress_int (W : Nat) (input : Nat) (bit_count : Nat) : Option Nat :=
  if bit_count = 0 then none
  else
    let hbi := high_bit_index W input
    if hbi ≤ bit_count then some input
    else
      let shift := hbi - bit_count
      if W ≤ shift then none
      else
        let pfx := input >>> shift  -- `prefix` in the source (a Lean keyword)
        let suffix0 := (1 <<< (shift - 1)) % 2 ^ W
        let sel := (if bit_count = 1 then shift else pfx) &&& 1
        let suffix := if sel = 1 then suffix0 - 1 else suffix0
        some (((pfx <<< shift) % 2 ^ W) ||| suffix)

/-! ## Bridging `fls` with Mathlib's `Nat.size` -/

theorem flsAux_eq_size : ∀ (fuel n : Nat), n ≤ fuel → flsAux fuel n = Nat.size n := by
  intro fuel
  induction fuel with
  | zero =>
    intro n hn
    interval_cases n
    simp [flsAux, Nat.size_zero]
  | succ f ih =>
    intro n hn
    match n with
    | 0 => simp [flsAux, Nat.size_zero]
    | m + 1 =>
      have hdiv : (m + 1) / 2 ≤ f := by omega
      have hrec : flsAux (f + 1) (m + 1) = flsAux f ((m + 1) / 2) + 1 := rfl
      rw [hrec, ih _ hdiv]
      -- `size n = size (n / 2) + 1` for `n ≠ 0`
      have h1 : Nat.size (m + 1) ≤ Nat.size ((m + 1) / 2) + 1 := by
        rw [Nat.size_le, pow_succ]
        have := Nat.lt_size_self ((m + 1) / 2)
        omega
      have h2 : Nat.size ((m + 1) / 2) + 1 ≤ Nat.size (m + 1) := by
        rw [Nat.succ_le_iff, Nat.lt_size]
        rcases Nat.eq_zero_or_pos ((m + 1) / 2) with h | h
        · rw [h, Nat.size_zero]; omega
        · have hlow : 2 ^ (Nat.size ((m + 1) / 2) - 1) ≤ (m + 1) / 2 := by
            rw [← Nat.lt_size]
            have := Nat.size_pos.mpr h
            omega
          have hpos := Nat.size_pos.mpr h
          calc 2 ^ Nat.size ((m + 1) / 2)
              = 2 ^ (Nat.size ((m + 1) / 2) - 1 + 1) := by congr 1; omega
            _ = 2 ^ (Nat.size ((m + 1) / 2) - 1) * 2 := by rw [pow_succ]
            _ ≤ (m + 1) / 2 * 2 := by omega
            _ ≤ m + 1 := by omega
      omega

theorem fls_eq_size (n : Nat) : fls n = Nat.size n :=
  flsAux_eq_size n n le_rfl

theorem high_bit_index_eq_size {W n : Nat} (h : n < 2 ^ W) :
    high_bit_index W n = Nat.size n := by
  have hs : Nat.size n ≤ W := Nat.size_le.mpr h
  unfold high_bit_index leading_zeros
  rw [fls_eq_size]
  omega

theorem high_bit_index_le (W n : Nat) : high_bit_index W n ≤ W := by
  unfold high_bit_index leading_zeros
  omega

/-! ## A normal form for the compressing branch -/

/-- When compression applies (`bit_count < high_bit_index`), `compress_int`
returns the prefix re-shifted into place plus the selected suffix pattern,
all expressed with `/`, `*`, `+` on `Nat`. -/
theorem compress_int_compressing (W v bc : Nat) (hv : v < 2 ^ W) (hbc : 1 ≤ bc)
    (h : bc < Nat.size v) :
    compress_int W v bc =
      some (2 ^ (Nat.size v - bc) * (v / 2 ^ (Nat.size v - bc)) +
        (if (if bc = 1 then Nat.size v - bc else v / 2 ^ (Nat.size v - bc)) % 2 = 1
          then 2 ^ (Nat.size v - bc - 1) - 1
          else 2 ^ (Nat.size v - bc - 1))) := by
  have hsW : Nat.size v ≤ W := Nat.size_le.mpr hv
  have hbi := high_bit_index_eq_size hv
  simp only [compress_int, hbi, Nat.and_one_is_mod]
  rw [if_neg (show ¬ bc = 0 by omega), if_neg (show ¬ Nat.size v ≤ bc by omega),
    if_neg (show ¬ W ≤ Nat.size v - bc by omega)]
  rw [Nat.shiftRight_eq_div_pow, Nat.shiftLeft_eq, Nat.shiftLeft_eq, one_mul]
  have hpow : 2 ^ (Nat.size v - bc - 1) % 2 ^ W = 2 ^ (Nat.size v - bc - 1) :=
    Nat.mod_eq_of_lt (Nat.pow_lt_pow_right one_lt_two (by omega))
  have hmul : v / 2 ^ (Nat.size v - bc) * 2 ^ (Nat.size v - bc) % 2 ^ W =
      v / 2 ^ (Nat.size v - bc) * 2 ^ (Nat.size v - bc) :=
    Nat.mod_eq_of_lt (lt_of_le_of_lt (Nat.div_mul_le_self v _) hv)
  rw [hpow, hmul, mul_comm (v / 2 ^ (Nat.size v - bc)) (2 ^ (Nat.size v - bc))]
  have hp1 : 0 < 2 ^ (Nat.size v - bc - 1) := Nat.pos_pow_of_pos _ (by omega)
  have hlt : 2 ^ (Nat.size v - bc - 1) < 2 ^ (Nat.size v - bc) :=
    Nat.pow_lt_pow_right one_lt_two (by omega)
  by_cases hsel : (if bc = 1 then Nat.size v - bc else v / 2 ^ (Nat.size v - bc)) % 2 = 1
  · rw [if_pos hsel]
    exact congrArg some (Nat.mul_add_lt_is_or (by omega) _).symm
  · rw [if_neg hsel]
    exact congrArg some (Nat.mul_add_lt_is_or (by omega) _).symm

/-- The passthrough branch: when the value already fits in `bit_count` bits,
`compress_int` returns it unchanged. -/
theorem compress_int_passthrough (W v bc : Nat) (hbc : 1 ≤ bc)
    (h : high_bit_index W v ≤ bc) : compress_int W v bc = some v := by
  simp only [compress_int, if_neg (show ¬ bc = 0 by omega), if_pos h]

/-- Structure of a compressed result: it has the same `Nat.size` as the input,
the same top `bit_count` bits, and stays below `2 ^ Nat.size v`. -/
theorem compress_result_facts (W v bc : Nat) (hv : v < 2 ^ W) (hbc : 1 ≤ bc)
    (h : bc < Nat.size v) (r : Nat) (hr : compress_int W v bc = some r) :
    Nat.size r = Nat.size v ∧
      r / 2 ^ (Nat.size v - bc) = v / 2 ^ (Nat.size v - bc) ∧ r < 2 ^ Nat.size v := by
  rw [compress_int_compressing W v bc hv hbc h] at hr
  obtain rfl := (Option.some_inj.mp hr).symm
  have hs1 : 1 ≤ Nat.size v - bc := by omega
  have hvlt : v < 2 ^ Nat.size v := Nat.lt_size_self v
  have hvge : 2 ^ (Nat.size v - 1) ≤ v := Nat.lt_size.mp (by omega)
  have hpows : 0 < 2 ^ (Nat.size v - bc) := Nat.pos_pow_of_pos _ (by omega)
  have hsfx :
      (if (if bc = 1 then Nat.size v - bc else v / 2 ^ (Nat.size v - bc)) % 2 = 1
        then 2 ^ (Nat.size v - bc - 1) - 1 else 2 ^ (Nat.size v - bc - 1)) <
        2 ^ (Nat.size v - bc) := by
    have hlt2 : 2 ^ (Nat.size v - bc - 1) < 2 ^ (Nat.size v - bc) :=
      Nat.pow_lt_pow_right one_lt_two (by omega)
    by_cases hc : (if bc = 1 then Nat.size v - bc else v / 2 ^ (Nat.size v - bc)) % 2 = 1
    · rw [if_pos hc]; omega
    · rw [if_neg hc]; omega
  have hsplit : 2 ^ (Nat.size v - bc) * 2 ^ bc = 2 ^ Nat.size v := by
    rw [← pow_add]; congr 1; omega
  have hsplit1 : 2 ^ (Nat.size v - bc) * 2 ^ (bc - 1) = 2 ^ (Nat.size v - 1) := by
    rw [← pow_add]; congr 1; omega
  have hplt : v / 2 ^ (Nat.size v - bc) < 2 ^ bc := by
    rw [Nat.div_lt_iff_lt_mul hpows, mul_comm, hsplit]; exact hvlt
  have hpge : 2 ^ (bc - 1) ≤ v / 2 ^ (Nat.size v - bc) := by
    rw [Nat.le_div_iff_mul_le hpows, mul_comm, hsplit1]; exact hvge
  have hrdiv :
      (2 ^ (Nat.size v - bc) * (v / 2 ^ (Nat.size v - bc)) +
        (if (if bc = 1 then Nat.size v - bc else v / 2 ^ (Nat.size v - bc)) % 2 = 1
          then 2 ^ (Nat.size v - bc - 1) - 1 else 2 ^ (Nat.size v - bc - 1))) /
        2 ^ (Nat.size v - bc) = v / 2 ^ (Nat.size v - bc) := by
    rw [Nat.mul_add_div hpows, Nat.div_eq_of_lt hsfx, Nat.add_zero]
  have hrlt :
      2 ^ (Nat.size v - bc) * (v / 2 ^ (Nat.size v - bc)) +
        (if (if bc = 1 then Nat.size v - bc else v / 2 ^ (Nat.size v - bc)) % 2 = 1
          then 2 ^ (Nat.size v - bc - 1) - 1 else 2 ^ (Nat.size v - bc - 1)) <
        2 ^ Nat.size v := by
    calc 2 ^ (Nat.size v - bc) * (v / 2 ^ (Nat.size v - bc)) +
          (if (if bc = 1 then Nat.size v - bc else v / 2 ^ (Nat.size v - bc)) % 2 = 1
            then 2 ^ (Nat.size v - bc - 1) - 1 else 2 ^ (Nat.size v - bc - 1))
        < 2 ^ (Nat.size v - bc) * (v / 2 ^ (Nat.size v - bc)) + 2 ^ (Nat.size v - bc) := by
          omega
      _ = 2 ^ (Nat.size v - bc) * (v / 2 ^ (Nat.size v - bc) + 1) := by ring
      _ ≤ 2 ^ (Nat.size v - bc) * 2 ^ bc := Nat.mul_le_mul_left _ (by omega)
      _ = 2 ^ Nat.size v := hsplit
  have hrge :
      2 ^ (Nat.size v - 1) ≤
        2 ^ (Nat.size v - bc) * (v / 2 ^ (Nat.size v - bc)) +
          (if (if bc = 1 then Nat.size v - bc else v / 2 ^ (Nat.size v - bc)) % 2 = 1
            then 2 ^ (Nat.size v - bc - 1) - 1 else 2 ^ (Nat.size v - bc - 1)) := by
    have : 2 ^ (Nat.size v - 1) ≤ 2 ^ (Nat.size v - bc) * (v / 2 ^ (Nat.size v - bc)) := by
      rw [← hsplit1]; exact Nat.mul_le_mul_left _ hpge
    omega
  refine ⟨?_, hrdiv, hrlt⟩
  have h1 : Nat.size _ ≤ Nat.size v := Nat.size_le.mpr hrlt
  have h2 : Nat.size v - 1 < Nat.size _ := Nat.lt_size.mpr hrge
  omega

/-! ## The claims -/

/-- C1: for every width `W`, value and `bit_count ≥ 1` with
`high_bit_index value ≤ bit_count`, `compress_int` returns the value
unchanged; in particular `compress_int i 3 = i` for every `i` in `0..8`
(on `u32`, i.e. `W = 32`). -/
theorem C1_passthrough :
    (∀ W v bc : Nat, 1 ≤ bc → high_bit_index W v ≤ bc →
      compress_int W v bc = some v) ∧
    (∀ i < 8, compress_int 32 i 3 = some i) := by
  refine ⟨fun W v bc hbc h => compress_int_passthrough W v bc hbc h, ?_⟩
  decide

/-- C1 witness: the passthrough branch at the concrete input `(W, v, bc) = (32, 5, 3)`. -/
theorem C1_passthrough_witness : compress_int 32 5 3 = some 5 :=
  C1_passthrough.1 32 5 3 (by norm_num) (by decide)

/-- C9: for `bit_count ≥ W` (width of the type) and `bit_count ≥ 1`, every
valid value (`v < 2 ^ W`) passes through unchanged with no panic, since
`high_bit_index v ≤ W ≤ bit_count`. -/
theorem C9_bit_count_ge_width (W v bc : Nat) (hv : v < 2 ^ W) (hbc : 1 ≤ bc)
    (hW : W ≤ bc) : compress_int W v bc = some v :=
  compress_int_passthrough W v bc hbc (le_trans (high_bit_index_le W v) hW)

/-- C9 witness: `bit_count = 9 > 8 = W` on a `u8`-sized value. -/
theorem C9_bit_count_ge_width_witness : compress_int 8 200 9 = some 200 :=
  C9_bit_count_ge_width 8 200 9 (by norm_num) (by norm_num) (by norm_num)

/-- C4: `compress_int value 0` panics (the `assert!(bit_count > 0)`), modelled
as `none`, for every width and value; and for every `bit_count ≥ 1` the
function completes normally and returns a value (`isSome`), for every value
of every width — including `value = 0` and `bit_count ≥ W`. -/
theorem C4_error_handling (W v : Nat) :
    compress_int W v 0 = none ∧
      ∀ bc : Nat, 1 ≤ bc → (compress_int W v bc).isSome = true := by
  constructor
  · simp [compress_int]
  · intro bc hbc
    have hle := high_bit_index_le W v
    simp only [compress_int, if_neg (show ¬ bc = 0 by omega)]
    by_cases h : high_bit_index W v ≤ bc
    · rw [if_pos h]; rfl
    · rw [if_neg h, if_neg (show ¬ W ≤ high_bit_index W v - bc by omega)]
      rfl

/-- C4 witness: at `(W, v) = (32, 67)`: `bit_count = 0` panics, `bit_count = 5`
returns normally. -/
theorem C4_error_handling_witness :
    compress_int 32 67 0 = none ∧ (compress_int 32 67 5).isSome = true :=
  ⟨(C4_error_handling 32 67).1, (C4_error_handling 32 67).2 5 (by norm_num)⟩

/-- C7: the concrete input/output pairs for `bit_count = 3` on `u32`:
`compress_int 67 3 = 72`, `compress_int i 3 = 9` for `i ∈ 8..10`,
`compress_int i 3 = 10` for `i ∈ 10..12`, `compress_int i 3 = 18` for
`i ∈ 16..20`. -/
theorem C7_concrete_values :
    compress_int 32 67 3 = some 72 ∧
    compress_int 32 8 3 = some 9 ∧ compress_int 32 9 3 = some 9 ∧
    compress_int 32 10 3 = some 10 ∧ compress_int 32 11 3 = some 10 ∧
    compress_int 32 16 3 = some 18 ∧ compress_int 32 17 3 = some 18 ∧
    compress_int 32 18 3 = some 18 ∧ compress_int 32 19 3 = some 18 := by
  decide

/-- A shifted-out prefix `or`-ed with a value below `2 ^ shift` is plain
addition. -/
theorem shift_lor_eq_add (v s b : Nat) (hb : b < 2 ^ s) :
    (v >>> s) <<< s ||| b = 2 ^ s * (v / 2 ^ s) + b := by
  rw [Nat.shiftRight_eq_div_pow, Nat.shiftLeft_eq, mul_comm]
  exact (Nat.mul_add_lt_is_or hb _).symm

/-- The compression branch as the spec words it (§4.1 steps 3-7):
`shift = high_bit_index - bit_count`, `prefix = value >> shift`, a selector
from the low bit of `prefix` (of `shift` when `bit_count = 1`),
Pattern A `= 1 << (shift - 1)`, Pattern B `= (1 << (shift - 1)) - 1`,
result `= (prefix << shift) | suffix` with Pattern B iff the selector bit
is 1.  Stated from the spec, for comparison with `compress_int`. -/
def compress_branch_spec (W value bit_count : Nat) : Nat :=
  let shift := high_bit_index W value - bit_count
  let pfx := value >>> shift
  let selector := (if bit_count = 1 then shift else pfx) % 2
  let patternA := 1 <<< (shift - 1)
  let patternB := 1 <<< (shift - 1) - 1
  (pfx <<< shift) ||| (if selector = 1 then patternB else patternA)

/-- C2: whenever compression applies (`high_bit_index > bit_count ≥ 1`),
`compress_int` returns exactly the value described by the spec's §4.1
formula (prefix re-shifted, suffix Pattern B when the selector bit is 1,
Pattern A otherwise). -/
theorem C2_compression_formula (W v bc : Nat) (hv : v < 2 ^ W) (hbc : 1 ≤ bc)
    (h : bc < high_bit_index W v) :
    compress_int W v bc = some (compress_branch_spec W v bc) := by
  have hbi := high_bit_index_eq_size hv
  rw [hbi] at h
  rw [compress_int_compressing W v bc hv hbc h]
  congr 1
  have hs1 : 1 ≤ Nat.size v - bc := by omega
  have hA : 2 ^ (Nat.size v - bc - 1) < 2 ^ (Nat.size v - bc) :=
    Nat.pow_lt_pow_right one_lt_two (by omega)
  have hsfxlt :
      (if (if bc = 1 then Nat.size v - bc else v / 2 ^ (Nat.size v - bc)) % 2 = 1
        then 2 ^ (Nat.size v - bc - 1) - 1 else 2 ^ (Nat.size v - bc - 1)) <
        2 ^ (Nat.size v - bc) := by
    by_cases hc :
        (if bc = 1 then Nat.size v - bc else v / 2 ^ (Nat.size v - bc)) % 2 = 1
    · rw [if_pos hc]; exact lt_of_le_of_lt (Nat.sub_le _ _) hA
    · rw [if_neg hc]; exact hA
  unfold compress_branch_spec
  rw [hbi]
  simp only [Nat.shiftRight_eq_div_pow, Nat.shiftLeft_eq, one_mul]
  rw [mul_comm (v / 2 ^ (Nat.size v - bc)) (2 ^ (Nat.size v - bc))]
  exact Nat.mul_add_lt_is_or hsfxlt _

/-- C2 witness: the formula at the concrete input `(W, v, bc) = (32, 67, 3)`. -/
theorem C2_compression_formula_witness :
    compress_int 32 67 3 = some (compress_branch_spec 32 67 3) :=
  C2_compression_formula 32 67 3 (by norm_num) (by norm_num) (by decide)

/-- C5: whenever compression applies, the top `bit_count` bits of the result
equal the top `bit_count` bits of the input: both sides agree after shifting
right by `high_bit_index - bit_count`. -/
theorem C5_prefix_preserved (W v bc : Nat) (hv : v < 2 ^ W) (hbc : 1 ≤ bc)
    (h : bc < high_bit_index W v) :
    ∃ r, compress_int W v bc = some r ∧
      r >>> (high_bit_index W v - bc) = v >>> (high_bit_index W v - bc) := by
  have hbi := high_bit_index_eq_size hv
  rw [hbi] at h ⊢
  obtain ⟨r, hr⟩ : ∃ r, compress_int W v bc = some r :=
    ⟨_, compress_int_compressing W v bc hv hbc h⟩
  obtain ⟨-, hdiv, -⟩ := compress_result_facts W v bc hv hbc h r hr
  exact ⟨r, hr, by rw [Nat.shiftRight_eq_div_pow, Nat.shiftRight_eq_div_pow]; exact hdiv⟩

/-- C5 witness: prefix preservation at `(W, v, bc) = (32, 67, 3)`:
`72 >> 4 = 67 >> 4 = 4`. -/
theorem C5_prefix_preserved_witness :
    ∃ r, compress_int 32 67 3 = some r ∧
      r >>> (high_bit_index 32 67 - 3) = 67 >>> (high_bit_index 32 67 - 3) :=
  C5_prefix_preserved 32 67 3 (by norm_num) (by norm_num) (by decide)

/-- C6: two values sharing the same `high_bit_index` and the same prefix
(the same top `bit_count` bits) compress to the same output, for every
`bit_count ≥ 1`. -/
theorem C6_bucket_collapse (W v1 v2 bc : Nat) (hbc : 1 ≤ bc)
    (hhbi : high_bit_index W v1 = high_bit_index W v2)
    (hpfx : v1 >>> (high_bit_index W v1 - bc) = v2 >>> (high_bit_index W v2 - bc)) :
    compress_int W v1 bc = compress_int W v2 bc := by
  rw [hhbi] at hpfx
  by_cases h : high_bit_index W v2 ≤ bc
  · have hd : high_bit_index W v2 - bc = 0 := by omega
    rw [hd, Nat.shiftRight_zero, Nat.shiftRight_zero] at hpfx
    rw [hpfx]
  · simp only [compress_int, hhbi, if_neg (show ¬ bc = 0 by omega), if_neg h, hpfx]

/-- C6 witness: `16` and `19` share `high_bit_index = 5` and prefix `4`
for `bit_count = 3`, and both compress to `18`. -/
theorem C6_bucket_collapse_witness : compress_int 32 16 3 = compress_int 32 19 3 :=
  C6_bucket_collapse 32 16 19 3 (by norm_num) (by decide) (by decide)

/-- C8: whenever compression applies, the result is one of exactly two values
for the given prefix — the prefix followed by Pattern A
(`1 << (shift - 1)`) or by Pattern B (`(1 << (shift - 1)) - 1`) — and those
two candidates differ by exactly 1. -/
theorem C8_two_valued (W v bc : Nat) (hv : v < 2 ^ W) (hbc : 1 ≤ bc)
    (h : bc < high_bit_index W v) :
    ∃ r, compress_int W v bc = some r ∧
      (r = (v >>> (high_bit_index W v - bc)) <<< (high_bit_index W v - bc) |||
            1 <<< (high_bit_index W v - bc - 1) ∨
       r = (v >>> (high_bit_index W v - bc)) <<< (high_bit_index W v - bc) |||
            (1 <<< (high_bit_index W v - bc - 1) - 1)) ∧
      (v >>> (high_bit_index W v - bc)) <<< (high_bit_index W v - bc) |||
          1 <<< (high_bit_index W v - bc - 1) =
        ((v >>> (high_bit_index W v - bc)) <<< (high_bit_index W v - bc) |||
          (1 <<< (high_bit_index W v - bc - 1) - 1)) + 1 := by
  have hbi := high_bit_index_eq_size hv
  rw [hbi] at h ⊢
  have hs1 : 1 ≤ Nat.size v - bc := by omega
  have hA : 2 ^ (Nat.size v - bc - 1) < 2 ^ (Nat.size v - bc) :=
    Nat.pow_lt_pow_right one_lt_two (by omega)
  have hA1 : 1 ≤ 2 ^ (Nat.size v - bc - 1) := Nat.pos_pow_of_pos _ (by omega)
  rw [show (1 : Nat) <<< (Nat.size v - bc - 1) = 2 ^ (Nat.size v - bc - 1) by
    rw [Nat.shiftLeft_eq, one_mul]]
  rw [shift_lor_eq_add v (Nat.size v - bc) _ (by omega),
    shift_lor_eq_add v (Nat.size v - bc) _ (by omega)]
  refine ⟨_, compress_int_compressing W v bc hv hbc h, ?_, by omega⟩
  by_cases hsel :
      (if bc = 1 then Nat.size v - bc else v / 2 ^ (Nat.size v - bc)) % 2 = 1
  · rw [if_pos hsel]; right; rfl
  · rw [if_neg hsel]; left; rfl

/-- C8 witness: at `(W, v, bc) = (32, 67, 3)` the result `72` is the
Pattern A candidate, and the candidates `72` and `71` differ by 1. -/
theorem C8_two_valued_witness :
    ∃ r, compress_int 32 67 3 = some r ∧
      (r = (67 >>> (high_bit_index 32 67 - 3)) <<< (high_bit_index 32 67 - 3) |||
            1 <<< (high_bit_index 32 67 - 3 - 1) ∨
       r = (67 >>> (high_bit_index 32 67 - 3)) <<< (high_bit_index 32 67 - 3) |||
            (1 <<< (high_bit_index 32 67 - 3 - 1) - 1)) ∧
      (67 >>> (high_bit_index 32 67 - 3)) <<< (high_bit_index 32 67 - 3) |||
          1 <<< (high_bit_index 32 67 - 3 - 1) =
        ((67 >>> (high_bit_index 32 67 - 3)) <<< (high_bit_index 32 67 - 3) |||
          (1 <<< (high_bit_index 32 67 - 3 - 1) - 1)) + 1 :=
  C8_two_valued 32 67 3 (by norm_num) (by norm_num) (by decide)

/-- C10: `compress_int` is idempotent: recompressing a compressed value (with
the same `bit_count ≥ 1`) returns it unchanged, for every valid value. -/
theorem C10_idempotent (W v bc : Nat) (hv : v < 2 ^ W) (hbc : 1 ≤ bc) :
    (compress_int W v bc).bind (fun r => compress_int W r bc) =
      compress_int W v bc := by
  have hbi := high_bit_index_eq_size hv
  by_cases h : Nat.size v ≤ bc
  · have hp := compress_int_passthrough W v bc hbc (by rw [hbi]; exact h)
    rw [hp]
    exact hp
  · push_neg at h
    obtain ⟨r, hr'⟩ : ∃ r, compress_int W v bc = some r :=
      ⟨_, compress_int_compressing W v bc hv hbc h⟩
    obtain ⟨hsize, hdiv, hlt⟩ := compress_result_facts W v bc hv hbc h r hr'
    rw [hr']
    show compress_int W r bc = some r
    have hrW : r < 2 ^ W :=
      lt_of_lt_of_le hlt (Nat.pow_le_pow_right (by norm_num) (Nat.size_le.mpr hv))
    have h2 : bc < Nat.size r := by rw [hsize]; exact h
    rw [compress_int_compressing W r bc hrW hbc h2, hsize, hdiv]
    rw [compress_int_compressing W v bc hv hbc h] at hr'
    exact hr'

/-- C10 witness: idempotence at `(W, v, bc) = (32, 67, 3)`:
`compress_int 72 3 = 72`. -/
theorem C10_idempotent_witness :
    (compress_int 32 67 3).bind (fun r => compress_int 32 r 3) =
      compress_int 32 67 3 :=
  C10_idempotent 32 67 3 (by norm_num) (by norm_num)

set_option maxRecDepth 100000 in
/-- C3: for `bit_count = 2` and `n = 1024`, the mean of the compressed values
over `i ∈ 0..n` equals `(n - 1) / 2 = 511.5` to within `1e-6` (in fact the
sum of the compressed values is exactly `523776`, the sum of the inputs, so
the difference is `0`). -/
theorem C3_bias_mean :
    (∑ i in Finset.range 1024, (compress_int 32 i 2).getD 0) = 523776 ∧
      |(∑ i in Finset.range 1024, ((compress_int 32 i 2).getD 0 : ℚ)) / 1024 -
          (1024 - 1) / 2| < 1 / 1000000 := by
  have hsum : (∑ i in Finset.range 1024, (compress_int 32 i 2).getD 0) = 523776 := by
    decide
  refine ⟨hsum, ?_⟩
  have hcast : (∑ i in Finset.range 1024, ((compress_int 32 i 2).getD 0 : ℚ)) =
      (523776 : ℚ) := by
    have h := congrArg (fun n : Nat => (n : ℚ)) hsum
    simpa [Nat.cast_sum] using h
  rw [hcast]
  norm_num

end RsSandbox
